import Mathlib

/-!
Verification development for the `maxgrep` command-line search tool.

The program (two Rust files, `src/lib.rs` and `src/main.rs`) is embedded
shallowly: strings are `List Char`, the argument vector is a
`List (List Char)`, the `HashMap<usize, &str>` of results is an association
list with unique keys, and the file system is an explicit function from
path to `Except` of file content.  Every definition mirrors the
corresponding Rust item; the theorems at the end settle the specification
claims about them.
-/

set_option maxHeartbeats 1000000

/-- Convert a Lean string literal to the `List Char` representation used
throughout the development. -/
def strL (s : String) : List Char := s.toList

/-- Boolean test that `q` is a prefix of `s` (character-wise equality). -/
def isPrefixL : List Char → List Char → Bool
  | [], _ => true
  | _ :: _, [] => false
  | a :: as, b :: bs => a = b && isPrefixL as bs

/-- Embedding of Rust `str::contains(&query)`: `q` occurs contiguously in
`s`.  Byte containment of valid UTF-8 coincides with character containment,
so the character-level definition is faithful. -/
def containsSub : List Char → List Char → Bool
  | [], q => isPrefixL q []
  | c :: rest, q => isPrefixL q (c :: rest) || containsSub rest q

/-- Embedding of Rust `str::to_lowercase()` on the character sets the
program manipulates (character-wise lowercasing). -/
def toLowerL (l : List Char) : List Char := l.map Char.toLower

/-- Drop one trailing carriage return, as Rust `str::lines` does for a
`\r\n` line ending. -/
def stripCR (l : List Char) : List Char :=
  if l.getLast? = some '\r' then l.dropLast else l

/-- Worker for `rustLines`: accumulates the current line (reversed) and
splits at `'\n'`; a trailing newline produces no final empty line, and the
segment before each `'\n'` loses a trailing `'\r'`. -/
def linesAux (acc : List Char) : List Char → List (List Char)
  | [] => [acc.reverse]
  | c :: rest =>
    if c = '\n' then
      stripCR acc.reverse ::
        (match rest with
         | [] => []
         | _ :: _ => linesAux [] rest)
    else linesAux (c :: acc) rest

/-- Embedding of Rust `str::lines()`: split on `'\n'`, treat `\r\n` as a
line ending, produce no final empty line for a trailing newline, and no
line at all for the empty string. -/
def rustLines (s : List Char) : List (List Char) :=
  match s with
  | [] => []
  | _ :: _ => linesAux [] s

/-- Embedding of `struct Params` from `src/lib.rs`. -/
structure Params where
  query : List Char
  filename : List Char
  case_insensitive : Bool
  print_line_no : Bool
  print_nonmatch : Bool
deriving DecidableEq, Repr

/-- The flag token `/n` (print line numbers). -/
def slashN : List Char := strL "/n"

/-- The flag token `/v` (print non-matching lines). -/
def slashV : List Char := strL "/v"

/-- The flag token `/c` (case-insensitive comparison). -/
def slashC : List Char := strL "/c"

/-- Embedding of the `args_parse` closure in `Params::new`: find the first
occurrence of `arg` in the vector, remove it, and report whether it was
found.  Returns the presence flag together with the updated vector. -/
def args_parse (arg : List Char) : List (List Char) → Bool × List (List Char)
  | [] => (false, [])
  | x :: rest =>
    if x = arg then (true, rest)
    else
      let r := args_parse arg rest
      (r.fst, x :: r.snd)

/-- Embedding of `Params::new` from `src/lib.rs`: pop the first occurrence
of each of `/n`, `/v`, `/c` (in that order), then require exactly two
remaining tokens, which become `query` and `filename`. -/
def Params.new (args : List (List Char)) : Except String Params :=
  let r1 := args_parse slashN args
  let print_line_no := r1.fst
  let r2 := args_parse slashV r1.snd
  let print_nonmatch := r2.fst
  let r3 := args_parse slashC r2.snd
  let case_insensitive := r3.fst
  match r3.snd with
  | [query, filename] =>
    Except.ok { query, filename, case_insensitive, print_line_no, print_nonmatch }
  | _ => Except.error "Invalid number of arguments."

/-- Loop body of `search`: walk the lines with a running zero-based index
`i`, lowercase the line when `ci` is set, and insert `(i + 1, line)` when
the containment test agrees with the inversion flag exactly as the Rust
`match` arms do. -/
def searchAux (ci inv : Bool) (q : List Char) : Nat → List (List Char) → List (Nat × List Char)
  | _, [] => []
  | i, line :: rest =>
    let line_ := if ci then toLowerL line else line
    match containsSub line_ q, inv with
    | true, false => (i + 1, line) :: searchAux ci inv q (i + 1) rest
    | false, true => (i + 1, line) :: searchAux ci inv q (i + 1) rest
    | _, _ => searchAux ci inv q (i + 1) rest

/-- Embedding of `search` from `src/lib.rs`: lowercase the query once when
`case_insensitive` is set, then scan the enumerated lines of the file. -/
def search (p : Params) (file : List Char) : List (Nat × List Char) :=
  let query := if p.case_insensitive then toLowerL p.query else p.query
  searchAux p.case_insensitive p.print_nonmatch query 0 (rustLines file)

/-- Lookup in the association list of results; models
`results.get(line_).unwrap()` (the keys are unique, so first match is the
only match). -/
def lookupKey (n : Nat) : List (Nat × List Char) → Option (List Char)
  | [] => none
  | (k, v) :: rest => if k = n then some v else lookupKey n rest

/-- Insert a key into an ascending list of keys, keeping it ascending. -/
def insertSorted (n : Nat) : List Nat → List Nat
  | [] => [n]
  | m :: rest => if n ≤ m then n :: m :: rest else m :: insertSorted n rest

/-- Embedding of `sort_results.sort()`: sort the collected keys into
ascending order (insertion sort; the source's stable sort agrees with it
on every input). -/
def sortKeys (l : List Nat) : List Nat := l.foldr insertSorted []

/-- Decimal rendering of a line number, as `print!("{}: ", line_)` writes it. -/
def natChars (n : Nat) : List Char := (toString n).toList

/-- Embedding of the printing loop of `run`: collect the keys, sort them,
and for each key emit the optional `"<number>: "` prefix followed by the
stored line text and a newline.  The produced `List Char` is the text
written to standard output by this loop. -/
def printResults (p : Params) (results : List (Nat × List Char)) : List Char :=
  let keys := results.map Prod.fst
  let sorted := sortKeys keys
  sorted.foldl
    (fun out k =>
      out ++ (if p.print_line_no then natChars k ++ [':', ' '] else [])
          ++ (lookupKey k results).getD [] ++ ['\n'])
    []

/-- Error type of `run`: the boxed error produced when
`fs::read_to_string` fails, carrying the underlying cause's description. -/
inductive RunError where
  | io : List Char → RunError
deriving DecidableEq

/-- Embedding of `run` from `src/lib.rs`.  The file system is passed
explicitly as a function from path to `Except` of content, mirroring the
external `fs::read_to_string` primitive; on success the returned value is
the text written to standard output. -/
def run (fs : List Char → Except (List Char) (List Char)) (p : Params) :
    Except RunError (List Char) :=
  match fs p.filename with
  | Except.error e => Except.error (RunError.io e)
  | Except.ok file => Except.ok (printResults p (search p file))

/-- The per-line inclusion decision of `search`: the (already effective)
query is contained in the effective line text exactly when `print_nonmatch`
is off.  This is the condition under which the Rust `match` arms insert. -/
def included (ci inv : Bool) (q line : List Char) : Bool :=
  (containsSub (if ci then toLowerL line else line) q) != inv

theorem args_parse_fst (a : List Char) (l : List (List Char)) :
    (args_parse a l).fst = decide (a ∈ l) := by
  induction l with
  | nil => simp [args_parse]
  | cons x t ih =>
    by_cases h : x = a
    · simp [args_parse, h]
    · simp [args_parse, h, ih, Ne.symm h]

theorem args_parse_snd (a : List Char) (l : List (List Char)) :
    (args_parse a l).snd = l.erase a := by
  induction l with
  | nil => simp [args_parse]
  | cons x t ih =>
    by_cases h : x = a
    · simp [args_parse, h, List.erase_cons_head]
    · have hbeq : (x == a) = false := by simpa using h
      simp [args_parse, h, ih, List.erase_cons, hbeq]

theorem erase_eq_filter_of_count_le_one (a : List Char) (l : List (List Char))
    (h : l.count a ≤ 1) :
    l.erase a = l.filter (fun x => decide (¬ x = a)) := by
  induction l with
  | nil => simp
  | cons x t ih =>
    by_cases hx : x = a
    · subst hx
      have hzero : t.count x = 0 := by
        have := List.count_cons_self x t
        omega
      have hnot : x ∉ t := List.count_eq_zero.mp hzero
      rw [List.erase_cons_head, List.filter_cons_of_neg (by simp)]
      refine (List.filter_eq_self.mpr ?_).symm
      intro b hb
      have hbx : ¬ b = x := fun hbx => hnot (hbx ▸ hb)
      simp [hbx]
    · have hbeq : (x == a) = false := by simpa using hx
      have hcount : t.count a ≤ 1 := by
        have := List.count_cons a x t
        by_cases hax : a = x
        · exact absurd hax.symm hx
        · rw [List.count_cons_of_ne hax] at h
          exact h
      simp [List.erase_cons, hbeq, hx, ih hcount]

theorem Params.new_eq (L : List (List Char)) :
    Params.new L =
      match ((L.erase slashN).erase slashV).erase slashC with
      | [q, t] =>
        Except.ok
          { query := q, filename := t,
            case_insensitive := decide (slashC ∈ (L.erase slashN).erase slashV),
            print_line_no := decide (slashN ∈ L),
            print_nonmatch := decide (slashV ∈ L.erase slashN) }
      | _ => Except.error "Invalid number of arguments."
    := by
  simp only [Params.new, args_parse_fst, args_parse_snd]

/-! ### Search engine lemmas -/

theorem searchAux_cons (ci inv : Bool) (q line : List Char) (i : Nat)
    (rest : List (List Char)) :
    searchAux ci inv q i (line :: rest) =
      if included ci inv q line then
        (i + 1, line) :: searchAux ci inv q (i + 1) rest
      else searchAux ci inv q (i + 1) rest := by
  cases h : containsSub (if ci then toLowerL line else line) q <;> cases inv <;>
    simp [searchAux, included, h]

theorem mem_searchAux (ci inv : Bool) (q : List Char) :
    ∀ (ls : List (List Char)) (i n : Nat) (line : List Char),
      ((n, line) ∈ searchAux ci inv q i ls) ↔
        ∃ j, ls[j]? = some line ∧ n = i + j + 1 ∧ included ci inv q line = true := by
  intro ls
  induction ls with
  | nil => intro i n line; simp [searchAux]
  | cons hd tl ih =>
    intro i n line
    rw [searchAux_cons]
    by_cases hinc : included ci inv q hd
    · rw [if_pos hinc]
      constructor
      · intro hmem
        rcases List.mem_cons.mp hmem with heq | hmem2
        · rw [Prod.mk.injEq] at heq
          exact ⟨0, by simp [heq.2], by omega, heq.2 ▸ hinc⟩
        · rcases (ih (i + 1) n line).mp hmem2 with ⟨j, hj1, hj2, hj3⟩
          exact ⟨j + 1, by simpa using hj1, by omega, hj3⟩
      · rintro ⟨j, hj1, hj2, hj3⟩
        cases j with
        | zero =>
          have hline : hd = line := by simpa using hj1
          subst hline
          have hn : n = i + 1 := by omega
          subst hn
          exact List.mem_cons_self _ _
        | succ j =>
          refine List.mem_cons_of_mem _ ((ih (i + 1) n line).mpr ?_)
          exact ⟨j, by simpa using hj1, by omega, hj3⟩
    · rw [if_neg hinc, ih (i + 1) n line]
      constructor
      · rintro ⟨j, hj1, hj2, hj3⟩
        exact ⟨j + 1, by simpa using hj1, by omega, hj3⟩
      · rintro ⟨j, hj1, hj2, hj3⟩
        cases j with
        | zero =>
          have hline : hd = line := by simpa using hj1
          exact absurd (hline ▸ hj3) hinc
        | succ j => exact ⟨j, by simpa using hj1, by omega, hj3⟩

theorem searchAux_keys_gt (ci inv : Bool) (q : List Char) :
    ∀ (ls : List (List Char)) (i : Nat) (x : Nat × List Char),
      x ∈ searchAux ci inv q i ls → i < x.fst := by
  intro ls
  induction ls with
  | nil => intro i x hx; simp [searchAux] at hx
  | cons hd tl ih =>
    intro i x hx
    rw [searchAux_cons] at hx
    by_cases hinc : included ci inv q hd
    · rw [if_pos hinc] at hx
      rcases List.mem_cons.mp hx with heq | hmem
      · subst heq; exact Nat.lt_succ_self i
      · have := ih (i + 1) x hmem; omega
    · rw [if_neg hinc] at hx
      have := ih (i + 1) x hx; omega

theorem searchAux_pairwise (ci inv : Bool) (q : List Char) :
    ∀ (ls : List (List Char)) (i : Nat),
      (searchAux ci inv q i ls).Pairwise (fun a b => a.fst < b.fst) := by
  intro ls
  induction ls with
  | nil => intro i; simp [searchAux]
  | cons hd tl ih =>
    intro i
    rw [searchAux_cons]
    by_cases hinc : included ci inv q hd
    · rw [if_pos hinc, List.pairwise_cons]
      refine ⟨fun x hx => ?_, ih (i + 1)⟩
      have := searchAux_keys_gt ci inv q tl (i + 1) x hx
      omega
    · rw [if_neg hinc]; exact ih (i + 1)

theorem lookupKey_of_mem :
    ∀ (l : List (Nat × List Char)) (k : Nat) (v : List Char),
      (l.map Prod.fst).Nodup → (k, v) ∈ l → lookupKey k l = some v := by
  intro l
  induction l with
  | nil => intro k v _ h; simp at h
  | cons hd tl ih =>
    intro k v hnd hmem
    obtain ⟨k1, v1⟩ := hd
    rw [List.map_cons, List.nodup_cons] at hnd
    rcases List.mem_cons.mp hmem with heq | hmem2
    · rw [Prod.mk.injEq] at heq
      simp [lookupKey, heq.1, heq.2]
    · have hk1 : ¬ k1 = k := by
        intro hk
        apply hnd.1
        rw [hk]
        exact List.mem_map.mpr ⟨(k, v), hmem2, rfl⟩
      simp [lookupKey, hk1, ih k v hnd.2 hmem2]

/-! ### Printer lemmas -/

theorem insertSorted_eq_cons (n : Nat) (l : List Nat) (h : ∀ m ∈ l, n ≤ m) :
    insertSorted n l = n :: l := by
  cases l with
  | nil => rfl
  | cons m rest =>
    simp only [insertSorted]
    rw [if_pos (h m (List.mem_cons_self m rest))]

theorem sortKeys_of_pairwise (l : List Nat) (h : l.Pairwise (· < ·)) :
    sortKeys l = l := by
  induction l with
  | nil => rfl
  | cons k t ih =>
    rw [List.pairwise_cons] at h
    have hfold : sortKeys (k :: t) = insertSorted k (sortKeys t) := rfl
    rw [hfold, ih h.2, insertSorted_eq_cons]
    intro m hm
    exact Nat.le_of_lt (h.1 m hm)

theorem foldl_append_eq_flatten (e : Nat → List Char) :
    ∀ (ks : List Nat) (out : List Char),
      ks.foldl (fun o k => o ++ e k) out = out ++ (ks.map e).flatten := by
  intro ks
  induction ks with
  | nil => intro out; simp
  | cons k t ih => intro out; simp [ih, List.append_assoc]

theorem printResults_eq_flatten (p : Params) (results : List (Nat × List Char)) :
    printResults p results =
      ((sortKeys (results.map Prod.fst)).map
          (fun k =>
            (if p.print_line_no then natChars k ++ [':', ' '] else [])
              ++ (lookupKey k results).getD [] ++ ['\n'])).flatten := by
  have hbody :
      (fun (o : List Char) (k : Nat) =>
          o ++ (if p.print_line_no then natChars k ++ [':', ' '] else [])
            ++ (lookupKey k results).getD [] ++ ['\n'])
        = fun (o : List Char) (k : Nat) =>
          o ++ ((if p.print_line_no then natChars k ++ [':', ' '] else [])
            ++ (lookupKey k results).getD [] ++ ['\n']) := by
    funext o k
    simp [List.append_assoc]
  unfold printResults
  rw [hbody, foldl_append_eq_flatten]
  simp

theorem mem_search (p : Params) (file : List Char) (n : Nat) (line : List Char) :
    ((n, line) ∈ search p file) ↔
      ∃ j, (rustLines file)[j]? = some line ∧ n = j + 1 ∧
        included p.case_insensitive p.print_nonmatch
          (if p.case_insensitive then toLowerL p.query else p.query) line = true := by
  unfold search
  rw [mem_searchAux]
  constructor <;> rintro ⟨j, h1, h2, h3⟩ <;> exact ⟨j, h1, by omega, h3⟩

theorem search_keys_pairwise (p : Params) (file : List Char) :
    ((search p file).map Prod.fst).Pairwise (· < ·) := by
  apply List.pairwise_map.mpr
  exact searchAux_pairwise _ _ _ _ _

theorem search_keys_nodup (p : Params) (file : List Char) :
    ((search p file).map Prod.fst).Nodup :=
  (search_keys_pairwise p file).imp (fun h => Nat.ne_of_lt h)

theorem mem_keys_search (p : Params) (file : List Char) (n : Nat) :
    (n ∈ (search p file).map Prod.fst) ↔
      ∃ j line, (rustLines file)[j]? = some line ∧ n = j + 1 ∧
        included p.case_insensitive p.print_nonmatch
          (if p.case_insensitive then toLowerL p.query else p.query) line = true := by
  rw [List.mem_map]
  constructor
  · rintro ⟨⟨k, v⟩, hmem, hfst⟩
    cases hfst
    rcases (mem_search p file k v).mp hmem with ⟨j, h1, h2, h3⟩
    exact ⟨j, v, h1, h2, h3⟩
  · rintro ⟨j, line, h1, h2, h3⟩
    exact ⟨(n, line), (mem_search p file n line).mpr ⟨j, h1, h2, h3⟩, rfl⟩

theorem printResults_search_eq (p : Params) (file : List Char) :
    sortKeys ((search p file).map Prod.fst) = (search p file).map Prod.fst ∧
    printResults p (search p file) =
      (((search p file).map Prod.fst).map
          (fun k =>
            (if p.print_line_no then natChars k ++ [':', ' '] else [])
              ++ (rustLines file).getD (k - 1) [] ++ ['\n'])).flatten := by
  have hsort := sortKeys_of_pairwise _ (search_keys_pairwise p file)
  refine ⟨hsort, ?_⟩
  rw [printResults_eq_flatten, hsort]
  congr 1
  apply List.map_congr_left
  intro k hk
  rcases List.mem_map.mp hk with ⟨⟨k0, v⟩, hmem, hfst⟩
  cases hfst
  have hlook : lookupKey k0 (search p file) = some v :=
    lookupKey_of_mem _ _ _ (search_keys_nodup p file) hmem
  rcases (mem_search p file k0 v).mp hmem with ⟨j, hj1, hj2, _⟩
  have hgd : (rustLines file).getD (k0 - 1) [] = v := by
    rw [List.getD_eq_getElem?_getD]
    have hj : k0 - 1 = j := by omega
    rw [hj, hj1]
    rfl
  rw [hlook, hgd]
  rfl

theorem included_iff (ci inv : Bool) (q line : List Char) :
    included ci inv q line = true ↔
      ((containsSub (if ci then toLowerL line else line) q = true ∧ inv = false)
        ∨ (containsSub (if ci then toLowerL line else line) q = false ∧ inv = true)) := by
  unfold included
  cases containsSub (if ci then toLowerL line else line) q <;> cases inv <;> simp

theorem included_invert (ci : Bool) (q line : List Char) :
    included ci true q line = !(included ci false q line) := by
  unfold included
  cases containsSub (if ci then toLowerL line else line) q <;> simp

theorem containsSub_nil (s : List Char) : containsSub s [] = true := by
  cases s <;> simp [containsSub, isPrefixL]

theorem included_empty_query (ci inv : Bool) (line : List Char) :
    included ci inv [] line = !inv := by
  unfold included
  rw [containsSub_nil]
  cases inv <;> rfl

theorem searchAux_empty_query_keys (ci : Bool) :
    ∀ (ls : List (List Char)) (i : Nat),
      (searchAux ci false [] i ls).map Prod.fst = List.range' (i + 1) ls.length := by
  intro ls
  induction ls with
  | nil => intro i; simp [searchAux]
  | cons hd tl ih =>
    intro i
    rw [searchAux_cons, if_pos (by rw [included_empty_query]; rfl)]
    rw [List.length_cons, List.range'_succ]
    simp [ih (i + 1)]

theorem searchAux_empty_query_inv (ci : Bool) :
    ∀ (ls : List (List Char)) (i : Nat), searchAux ci true [] i ls = [] := by
  intro ls
  induction ls with
  | nil => intro i; rfl
  | cons hd tl ih =>
    intro i
    rw [searchAux_cons, if_neg (by rw [included_empty_query]; simp)]
    exact ih (i + 1)

/-! ### Claim theorems -/

/-- C1: for every configuration and file text, a line is in the result set
exactly when the decision table holds: the effective line text contains the
effective query and `invert_match` (`print_nonmatch`) is false, or it does
not contain it and `invert_match` is true; and for file
`"abc\nxyz\nabcd"`, query `"ab"`, inverted, case-sensitive, the result set
is exactly `{2 : "xyz"}`. -/
theorem search_decision_table :
    (∀ (p : Params) (file : List Char) (n : Nat) (line : List Char),
      ((n, line) ∈ search p file) ↔
        ∃ j, (rustLines file)[j]? = some line ∧ n = j + 1 ∧
          ((containsSub (if p.case_insensitive then toLowerL line else line)
                (if p.case_insensitive then toLowerL p.query else p.query) = true
              ∧ p.print_nonmatch = false)
            ∨ (containsSub (if p.case_insensitive then toLowerL line else line)
                (if p.case_insensitive then toLowerL p.query else p.query) = false
              ∧ p.print_nonmatch = true)))
    ∧ search ⟨strL "ab", strL "f", false, false, true⟩ (strL "abc\nxyz\nabcd")
        = [(2, strL "xyz")] := by
  constructor
  · intro p file n line
    rw [mem_search]
    exact exists_congr fun j => by rw [included_iff]
  · decide

/-- C1 witness: line 2 (`"xyz"`) of `"abc\nxyz\nabcd"` is in the inverted
result set because it does not contain `"ab"`, by the decision table. -/
theorem search_decision_table_witness :
    (2, strL "xyz") ∈
      search ⟨strL "ab", strL "f", false, false, true⟩ (strL "abc\nxyz\nabcd") :=
  (search_decision_table.1 ⟨strL "ab", strL "f", false, false, true⟩
      (strL "abc\nxyz\nabcd") 2 (strL "xyz")).mpr
    ⟨1, by decide, by decide, Or.inr ⟨by decide, rfl⟩⟩

/-- C2: when the three flag tokens each occur at most once and exactly two
non-flag tokens remain, parsing succeeds, the two non-flag tokens become
query and target in their relative order, and each boolean field is set
exactly when the corresponding flag is present. -/
theorem params_new_flags_interspersed (L : List (List Char)) (q t : List Char)
    (hn : L.count slashN ≤ 1) (hv : L.count slashV ≤ 1) (hc : L.count slashC ≤ 1)
    (hpos : L.filter (fun x => decide (¬ x = slashN ∧ ¬ x = slashV ∧ ¬ x = slashC))
        = [q, t]) :
    Params.new L = Except.ok
      { query := q, filename := t,
        case_insensitive := decide (slashC ∈ L),
        print_line_no := decide (slashN ∈ L),
        print_nonmatch := decide (slashV ∈ L) } := by
  have h1 : L.erase slashN = L.filter (fun x => decide (¬ x = slashN)) :=
    erase_eq_filter_of_count_le_one _ _ hn
  have hv1 : (L.erase slashN).count slashV ≤ 1 :=
    le_trans ((List.erase_sublist _ _).count_le _) hv
  have h2 : (L.erase slashN).erase slashV
      = (L.erase slashN).filter (fun x => decide (¬ x = slashV)) :=
    erase_eq_filter_of_count_le_one _ _ hv1
  have hc2 : ((L.erase slashN).erase slashV).count slashC ≤ 1 :=
    le_trans ((List.erase_sublist _ _).count_le _)
      (le_trans ((List.erase_sublist _ _).count_le _) hc)
  have h3 : ((L.erase slashN).erase slashV).erase slashC
      = ((L.erase slashN).erase slashV).filter (fun x => decide (¬ x = slashC)) :=
    erase_eq_filter_of_count_le_one _ _ hc2
  have hrem : ((L.erase slashN).erase slashV).erase slashC = [q, t] := by
    rw [h3, h2, h1, List.filter_filter, List.filter_filter, ← hpos]
    apply List.filter_congr
    intro x _
    by_cases hxn : x = slashN <;> by_cases hxv : x = slashV <;>
      by_cases hxc : x = slashC <;> simp [hxn, hxv, hxc]
  have hvm : decide (slashV ∈ L.erase slashN) = decide (slashV ∈ L) :=
    decide_eq_decide.mpr (List.mem_erase_of_ne (by decide))
  have hcm : decide (slashC ∈ (L.erase slashN).erase slashV) = decide (slashC ∈ L) := by
    apply decide_eq_decide.mpr
    rw [List.mem_erase_of_ne (by decide), List.mem_erase_of_ne (by decide)]
  rw [Params.new_eq, hrem, hvm, hcm]

/-- C2 witness: `["/n", "ab", "/c", "file.txt"]` parses with query `"ab"`,
target `"file.txt"`, and exactly the `/n` and `/c` booleans set. -/
theorem params_new_flags_interspersed_witness :
    Params.new [strL "/n", strL "ab", strL "/c", strL "file.txt"] = Except.ok
      { query := strL "ab", filename := strL "file.txt",
        case_insensitive := true, print_line_no := true, print_nonmatch := false } := by
  have h := params_new_flags_interspersed [strL "/n", strL "ab", strL "/c", strL "file.txt"]
    (strL "ab") (strL "file.txt") (by decide) (by decide) (by decide) (by decide)
  simpa using h

/-- C3: whenever the token list left after removing the first occurrence of
each recognized flag does not have exactly two elements (fewer or more),
parsing fails with the invalid-argument-count error and no configuration is
produced. -/
theorem params_new_invalid_count (L : List (List Char))
    (h : (((L.erase slashN).erase slashV).erase slashC).length ≠ 2) :
    Params.new L = Except.error "Invalid number of arguments." := by
  rw [Params.new_eq]
  generalize hr : ((L.erase slashN).erase slashV).erase slashC = l3 at h
  rcases l3 with _ | ⟨a, _ | ⟨b, _ | ⟨c, rest⟩⟩⟩
  · rfl
  · rfl
  · exact absurd rfl h
  · rfl

/-- C3 witness: a single token (fewer than two after flag removal) yields
the invalid-argument-count error. -/
theorem params_new_invalid_count_witness :
    Params.new [strL "onlyone"] = Except.error "Invalid number of arguments." :=
  params_new_invalid_count [strL "onlyone"] (by decide)

/-- C4: the parser removes only the first occurrence of a flag token (the
count of that token drops by exactly one, all other tokens keep their
count), so a duplicated flag leaves its second occurrence to be counted by
the positional check: `["/n", "/n", "ab", "f.txt"]` fails with the
invalid-argument-count error instead of parsing. -/
theorem params_duplicate_flag_kept :
    (∀ (a : List Char) (L : List (List Char)),
        ((args_parse a L).snd).count a = L.count a - 1
      ∧ ∀ b : List Char, ¬ b = a → ((args_parse a L).snd).count b = L.count b)
    ∧ Params.new [strL "/n", strL "/n", strL "ab", strL "f.txt"]
        = Except.error "Invalid number of arguments." := by
  constructor
  · intro a L
    constructor
    · rw [args_parse_snd]
      exact List.count_erase_self a L
    · intro b hb
      rw [args_parse_snd]
      exact List.count_erase_of_ne hb L
  · rfl

/-- C4 witness: removing `/n` from `["/n", "/n", "ab"]` leaves one `/n`
(count drops from 2 to 1) and keeps the count of `"ab"`. -/
theorem params_duplicate_flag_kept_witness :
    ((args_parse (strL "/n") [strL "/n", strL "/n", strL "ab"]).snd).count (strL "/n")
        = ([strL "/n", strL "/n", strL "ab"] : List (List Char)).count (strL "/n") - 1
    ∧ ((args_parse (strL "/n") [strL "/n", strL "/n", strL "ab"]).snd).count (strL "ab")
        = ([strL "/n", strL "/n", strL "ab"] : List (List Char)).count (strL "ab") :=
  ⟨(params_duplicate_flag_kept.1 (strL "/n") [strL "/n", strL "/n", strL "ab"]).1,
    (params_duplicate_flag_kept.1 (strL "/n") [strL "/n", strL "/n", strL "ab"]).2
      (strL "ab") (by decide)⟩

/-- C5: with `case_insensitive = true` a line is selected exactly when its
lowercased form contains the lowercased query (modulo the inversion flag),
and the stored text is the original, non-lowercased line; searching
`"Foo"` in `"foobar"` case-sensitively yields no match, case-insensitively
it yields a match storing the original `"foobar"`. -/
theorem search_case_insensitive (p : Params) (file : List Char)
    (h : p.case_insensitive = true) :
    (∀ (n : Nat) (line : List Char),
      ((n, line) ∈ search p file) ↔
        ∃ j, (rustLines file)[j]? = some line ∧ n = j + 1 ∧
          (containsSub (toLowerL line) (toLowerL p.query) != p.print_nonmatch) = true)
    ∧ search ⟨strL "Foo", strL "f", false, false, false⟩ (strL "foobar") = []
    ∧ search ⟨strL "Foo", strL "f", true, false, false⟩ (strL "foobar")
        = [(1, strL "foobar")] := by
  refine ⟨?_, by decide, by decide⟩
  intro n line
  rw [mem_search]
  exact exists_congr fun j => by simp [included, h]

/-- C5 witness: the case-insensitive search of `"Foo"` in `"foobar"`
contains line 1 with the original text `"foobar"`. -/
theorem search_case_insensitive_witness :
    (1, strL "foobar") ∈
      search ⟨strL "Foo", strL "f", true, false, false⟩ (strL "foobar") :=
  ((search_case_insensitive ⟨strL "Foo", strL "f", true, false, false⟩
      (strL "foobar") rfl).1 1 (strL "foobar")).mpr ⟨0, by decide, by decide, by decide⟩

/-- C6: the printing step of `run` renders the result set in strictly
ascending line-number order, and each rendered entry is the
`"<number>: "` prefix (emitted only when `print_line_no` is set, with no
trailing newline) followed by the stored line text (line `k` of the file,
at zero-based index `k - 1`) and a newline. -/
theorem run_printing_sorted (p : Params) (file : List Char) :
    (sortKeys ((search p file).map Prod.fst)).Pairwise (· < ·)
    ∧ printResults p (search p file) =
        ((sortKeys ((search p file).map Prod.fst)).map
            (fun k =>
              (if p.print_line_no then natChars k ++ [':', ' '] else [])
                ++ (rustLines file).getD (k - 1) [] ++ ['\n'])).flatten := by
  have h := printResults_search_eq p file
  constructor
  · rw [h.1]
    exact search_keys_pairwise p file
  · rw [h.1]
    exact h.2

/-- C8: when reading the target fails, `run` fails with the `Io` error
wrapping the underlying cause, and no output value is produced (the search
and print steps are never reached). -/
theorem run_io_error (fs : List Char → Except (List Char) (List Char)) (p : Params)
    (e : List Char) (h : fs p.filename = Except.error e) :
    run fs p = Except.error (RunError.io e)
    ∧ ∀ out : List Char, ¬ run fs p = Except.ok out := by
  have hrun : run fs p = Except.error (RunError.io e) := by
    unfold run
    rw [h]
  refine ⟨hrun, fun out hok => ?_⟩
  rw [hrun] at hok
  exact Except.noConfusion hok

/-- C8 witness: a file system on which every read fails makes `run` return
the wrapped `Io` error. -/
theorem run_io_error_witness :
    run (fun _ => Except.error (strL "No such file or directory (os error 2)"))
        ⟨strL "ab", strL "missing.txt", false, false, false⟩
      = Except.error (RunError.io (strL "No such file or directory (os error 2)")) :=
  (run_io_error (fun _ => Except.error (strL "No such file or directory (os error 2)"))
      ⟨strL "ab", strL "missing.txt", false, false, false⟩
      (strL "No such file or directory (os error 2)") rfl).1

/-- C9: for fixed query, file and case flag, the result-set key sets of the
non-inverted and inverted searches are disjoint and their union is exactly
the line numbers `1 .. number of lines`. -/
theorem invert_partition (q fname file : List Char) (ci pl : Bool) (n : Nat) :
    ¬ (n ∈ (search ⟨q, fname, ci, pl, false⟩ file).map Prod.fst
        ∧ n ∈ (search ⟨q, fname, ci, pl, true⟩ file).map Prod.fst)
    ∧ ((n ∈ (search ⟨q, fname, ci, pl, false⟩ file).map Prod.fst
        ∨ n ∈ (search ⟨q, fname, ci, pl, true⟩ file).map Prod.fst)
      ↔ 1 ≤ n ∧ n ≤ (rustLines file).length) := by
  have hm1 := mem_keys_search ⟨q, fname, ci, pl, false⟩ file n
  have hm2 := mem_keys_search ⟨q, fname, ci, pl, true⟩ file n
  constructor
  · rintro ⟨h1, h2⟩
    rcases hm1.mp h1 with ⟨j1, l1, ha1, hb1, hc1⟩
    rcases hm2.mp h2 with ⟨j2, l2, ha2, hb2, hc2⟩
    have hj : j1 = j2 := by omega
    subst hj
    rw [ha1] at ha2
    injection ha2 with hl
    subst hl
    rw [included_invert, hc1] at hc2
    simp at hc2
  · constructor
    · rintro (h | h)
      · rcases hm1.mp h with ⟨j, l, ha, hb, _⟩
        have hlen : j < (rustLines file).length := (List.getElem?_eq_some_iff.mp ha).1
        omega
      · rcases hm2.mp h with ⟨j, l, ha, hb, _⟩
        have hlen : j < (rustLines file).length := (List.getElem?_eq_some_iff.mp ha).1
        omega
    · rintro ⟨h1, h2⟩
      have hlt : n - 1 < (rustLines file).length := by omega
      cases hc : included ci false (if ci then toLowerL q else q)
          ((rustLines file).get ⟨n - 1, hlt⟩)
      · right
        apply hm2.mpr
        refine ⟨n - 1, (rustLines file).get ⟨n - 1, hlt⟩, ?_, by omega, ?_⟩
        · rw [List.getElem?_eq_getElem hlt]
          rfl
        · rw [included_invert, hc]
          rfl
      · left
        apply hm1.mpr
        exact ⟨n - 1, (rustLines file).get ⟨n - 1, hlt⟩,
          by rw [List.getElem?_eq_getElem hlt]; rfl, by omega, hc⟩

/-- C10: with an empty query, the non-inverted search includes every line
of the file (the empty substring is contained in every line), the
inverted search includes none, and the parser accepts an empty query
without any emptiness validation. -/
theorem empty_query_search (p : Params) (file : List Char) (hq : p.query = []) :
    (p.print_nonmatch = false →
      (search p file).map Prod.fst = List.range' 1 (rustLines file).length)
    ∧ (p.print_nonmatch = true → search p file = [])
    ∧ (∀ t : List Char, ¬ t = slashN → ¬ t = slashV → ¬ t = slashC →
        Params.new [[], t] = Except.ok
          { query := [], filename := t, case_insensitive := false,
            print_line_no := false, print_nonmatch := false }) := by
  have hq' : (if p.case_insensitive then toLowerL p.query else p.query) = [] := by
    cases hci : p.case_insensitive <;> simp [hq, toLowerL]
  refine ⟨?_, ?_, ?_⟩
  · intro hinv
    unfold search
    rw [hq', hinv, searchAux_empty_query_keys]
  · intro hinv
    unfold search
    rw [hq', hinv, searchAux_empty_query_inv]
  · intro t htn htv htc
    have h1 : slashN ∉ ([[], t] : List (List Char)) := by
      rw [List.mem_cons, List.mem_singleton]
      rintro (h | h)
      · exact (by decide : ¬ slashN = ([] : List Char)) h
      · exact htn h.symm
    have h2 : slashV ∉ ([[], t] : List (List Char)) := by
      rw [List.mem_cons, List.mem_singleton]
      rintro (h | h)
      · exact (by decide : ¬ slashV = ([] : List Char)) h
      · exact htv h.symm
    have h3 : slashC ∉ ([[], t] : List (List Char)) := by
      rw [List.mem_cons, List.mem_singleton]
      rintro (h | h)
      · exact (by decide : ¬ slashC = ([] : List Char)) h
      · exact htc h.symm
    rw [Params.new_eq, List.erase_of_not_mem h1, List.erase_of_not_mem h2,
      List.erase_of_not_mem h3]
    simp [decide_eq_false h1, decide_eq_false h2, decide_eq_false h3]
    exact ⟨⟨by decide, fun h => htc h.symm⟩, ⟨by decide, fun h => htn h.symm⟩,
      by decide, fun h => htv h.symm⟩

/-- C10 witness: with the empty query on `"a\nb"` the key set is `[1, 2]`,
and the parser accepts an empty query token. -/
theorem empty_query_search_witness :
    (search ⟨[], strL "f", false, false, false⟩ (strL "a\nb")).map Prod.fst
        = List.range' 1 (rustLines (strL "a\nb")).length
    ∧ Params.new [[], strL "target.txt"] = Except.ok
        { query := [], filename := strL "target.txt", case_insensitive := false,
          print_line_no := false, print_nonmatch := false } :=
  ⟨(empty_query_search ⟨[], strL "f", false, false, false⟩ (strL "a\nb") rfl).1 rfl,
    (empty_query_search ⟨[], strL "f", false, false, false⟩ (strL "a\nb") rfl).2.2
      (strL "target.txt") (by decide) (by decide) (by decide)⟩
